import Mathlib

/-!
Verification of the lexicographic byte-buffer minimizer
(`hypothesis/internal/conjecture/shrinking/lexical.py`).

The heuristics (`sort`, `float_hack`, `shift`, `shrink_indices`,
`rotate_suffixes`, `minimize_as_integer`, `partial_sort`, `short_circuit`)
are translated from the source.  The collaborators that the source imports
but that are not part of the source tree here — the base `Shrinker` class
(probe protocol), the `Integer` shrinker, the `Ordering` reorder shrinker
and the lexical float codec — are modelled from the specification and
marked as such in their doc comments.
-/

namespace LexicalShrink

/-- A buffer: an ordered sequence of bytes (each intended in `0..255`),
Python `hbytes`. -/
abbrev Buffer := List Nat

/-- The caller-supplied boolean predicate over buffers. -/
abbrev Pred := Buffer → Bool

/-- Python `left < right` on byte strings: strict lexicographic order
(a strict prefix is smaller).  This is `Lexical.left_is_better`. -/
def lexLt : Buffer → Buffer → Bool
  | _, [] => false
  | [], _ :: _ => true
  | a :: l, b :: r => decide (a < b) || (a == b && lexLt l r)

/-- Python `int_from_bytes` (big-endian unsigned value of the buffer);
`Lexical.current_int` is `valBE current`. -/
def valBE : Buffer → Nat
  | [] => 0
  | b :: l => b * 256 ^ l.length + valBE l

/-- Python `int_to_bytes i n` (`i.to_bytes(n, 'big')`): the `n`-byte
big-endian encoding of `i` (defined for all `i`, agreeing with the source
whenever `i < 256 ^ n`, the only case the source reaches). -/
def int_to_bytes : Nat → Nat → Buffer
  | _, 0 => []
  | i, n + 1 => i / 256 ^ n % 256 :: int_to_bytes (i % 256 ^ n) n

/-- Modelled from the spec (§3, §4.1): the `ShrinkState` owned by the probe
protocol (the base `Shrinker` class is not in the source tree).  `current`
is the best known buffer, `changes` the accepted-improvement counter,
`cache` the probe cache mapping previously tried buffers to their
predicate outcome.  `calls` is a ghost log of the buffers on which the
predicate was actually invoked (most recent first), and `tried` a ghost
log of every candidate submitted to the protocol gateway — exactly the
candidates on which the source's length assertion (`check_invariants`)
runs.  `full` mirrors the source's exhaustiveness flag. -/
structure ShrinkState where
  current : Buffer
  changes : Nat
  cache : List (Buffer × Bool)
  calls : List Buffer
  tried : List Buffer
  full : Bool
deriving DecidableEq

/-- Lookup in the probe cache (first matching entry). -/
def cacheLookup : List (Buffer × Bool) → Buffer → Option Bool
  | [], _ => none
  | e :: rest, c => if e.1 = c then some e.2 else cacheLookup rest c

/-- Modelled from the spec (§4.1): the probe protocol's `try` — the
source's `Shrinker.incorporate`.  The candidate is first submitted to the
gateway (logged in `tried`, where the length assertion runs); if it equals
`current`, is not strictly lexicographically smaller than `current`, or is
cached as failing, it returns false without invoking the predicate;
otherwise the predicate is invoked once (logged in `calls`) and the
outcome cached; on success `current` is replaced and `changes`
incremented. -/
def incorporate (p : Pred) (s : ShrinkState) (cand : Buffer) : ShrinkState × Bool :=
  let s0 := { s with tried := cand :: s.tried }
  if cand = s.current then (s0, false)
  else if lexLt cand s.current = false then (s0, false)
  else if cacheLookup s.cache cand = some false then (s0, false)
  else
    let r := p cand
    let s1 := { s0 with cache := (cand, r) :: s.cache, calls := cand :: s.calls }
    if r then ({ s1 with current := cand, changes := s.changes + 1 }, true) else (s1, false)

/-- Modelled from the spec (§4.1): `considerEqualOrBetter` — the source's
`Shrinker.consider`.  Accepts a candidate equal to `current` (returning
true with no state change, no length check and no predicate call),
otherwise behaves as `incorporate`. -/
def consider (p : Pred) (s : ShrinkState) (cand : Buffer) : ShrinkState × Bool :=
  if cand = s.current then (s, true) else incorporate p s cand

/-- Source `Lexical.incorporate_int`: probe the `size`-byte big-endian
encoding of `i` (with `size` read from the state at call time). -/
def incorporate_int (p : Pred) (s : ShrinkState) (i : Nat) : ShrinkState × Bool :=
  incorporate p s (int_to_bytes i s.current.length)

/-! ## The `shift` heuristic (source `Lexical.shift`) -/

/-- Inner loop of `shift`: for shift amounts `k+1` down to `1`, try
replacing byte `i` of the snapshot `block` by `c >>> k'`, stopping at the
first accepted probe. -/
def shiftTryK (p : Pred) (block : Buffer) (i c : Nat) : Nat → ShrinkState → ShrinkState
  | 0, s => s
  | k + 1, s =>
    let r := incorporate p s (block.set i (c >>> (k + 1)))
    if r.2 then r.1 else shiftTryK p block i c k r.1

/-- One position of a `shift` pass: snapshot the current buffer, read byte
`i`, and try its right-shifts from the largest shift amount
(`bit_length`) downwards. -/
def shiftIndex (p : Pred) (s : ShrinkState) (i : Nat) : ShrinkState :=
  shiftTryK p s.current i (s.current.getD i 0) (Nat.size (s.current.getD i 0)) s

/-- One full pass of `shift` over all byte positions. -/
def shiftPass (p : Pred) (s : ShrinkState) : ShrinkState :=
  (List.range s.current.length).foldl (shiftIndex p) s

/-- The outer `while prev != self.changes` loop of `shift`, with explicit
fuel.  The loop exits after the first pass that accepts no probe; the
termination theorem shows the fuel used by `shift` always suffices. -/
def shiftLoop (p : Pred) : Nat → ShrinkState → ShrinkState
  | 0, s => s
  | fuel + 1, s =>
    let s1 := shiftPass p s
    if s1.changes = s.changes then s1 else shiftLoop p fuel s1

/-- Source `Lexical.shift`: repeat full passes until one makes no accepted
change.  `valBE current + 1` passes always suffice because every accepted
probe strictly decreases the buffer's big-endian value. -/
def shift (p : Pred) (s : ShrinkState) : ShrinkState :=
  shiftLoop p (valBE s.current + 1) s

/-! ## The `rotate_suffixes` heuristic (source `Lexical.rotate_suffixes`) -/

/-- Index of the first nonzero byte (the source's `significant`,
found by `for significant, c in enumerate(current): if c: break`). -/
def firstNonzero : Buffer → Option Nat
  | [] => none
  | b :: l => if b ≠ 0 then some 0 else (firstNonzero l).map (· + 1)

/-- The rotated candidate for split point `i`:
`prefix ++ right ++ left` where the zero prefix has length `sig`,
`left = cur[sig : sig+i]` and `right = cur[sig+i :]`. -/
def rotatedAt (sig : Nat) (cur : Buffer) (i : Nat) : Buffer :=
  List.replicate sig 0 ++ cur.drop (sig + i) ++ (cur.drop sig).take i

/-- One split point of `rotate_suffixes`: probe the rotation only if it is
already lexicographically smaller than the (freshly read) current
buffer. -/
def rotateStep (p : Pred) (sig : Nat) (s : ShrinkState) (i : Nat) : ShrinkState :=
  if lexLt (rotatedAt sig s.current i) s.current then
    (incorporate p s (rotatedAt sig s.current i)).1
  else s

/-- Source `Lexical.rotate_suffixes`.  `none` models the source raising:
on an all-zero buffer the scan leaves `significant` at the last index and
`assert self.current[significant]` fails (AssertionError); on an empty
buffer `significant` is never bound (NameError).  Otherwise the split
points run over `1 .. size - significant - 1`. -/
def rotate_suffixes (p : Pred) (s : ShrinkState) : Option ShrinkState :=
  match firstNonzero s.current with
  | none => none
  | some sig => some ((List.range' 1 (s.current.length - sig - 1)).foldl (rotateStep p sig) s)

/-! ## The Integer shrinker collaborator and its call sites -/

/-- Modelled from the spec (§6): the downward search of the Integer
Shrinker collaborator (not in the source tree; only its call sites are).
From value `v` it keeps offering `v - 1` to `accept` while accepted, and
stops at the first rejection — so on return at final value `v > 0` the
candidate `v - 1` has just been rejected, the spec's "loops to a local
fixpoint". -/
def Integer.descend (accept : ShrinkState → Nat → ShrinkState × Bool) :
    Nat → Nat → ShrinkState → ShrinkState
  | 0, _, s => s
  | fuel + 1, v, s =>
    if v = 0 then s
    else
      let r := accept s (v - 1)
      if r.2 then Integer.descend accept fuel (v - 1) r.1 else r.1

/-- Modelled from the spec (§6): `Integer.shrink(value, accept, ...)`.
It attempts `0` early, then searches downward from the original value,
invoking `accept` on every candidate, and returns only at a local
fixpoint.  The `full` flag (cheap vs exhaustive mode) and the random
source (tie-breaking only) are not modelled. -/
def Integer.shrink (v : Nat) (accept : ShrinkState → Nat → ShrinkState × Bool)
    (_full : Bool) (s : ShrinkState) : ShrinkState :=
  let r := accept s 0
  if r.2 then r.1 else Integer.descend accept v v r.1

/-- The acceptance function `minimize_as_integer` passes to the Integer
shrinker: `lambda c: c == self.current_int or self.incorporate_int(c)`,
with `current_int` read fresh on every call. -/
def intAccept (p : Pred) (t : ShrinkState) (c : Nat) : ShrinkState × Bool :=
  if c = valBE t.current then (t, true) else incorporate_int p t c

/-- Source `Lexical.minimize_as_integer`: shrink the whole buffer as one
big-endian integer. -/
def minimize_as_integer (p : Pred) (full : Bool) (s : ShrinkState) : ShrinkState :=
  Integer.shrink (valBE s.current) (intAccept p) full s

/-- The acceptance function `shrink_indices` passes to the Integer
shrinker for position `i`:
`lambda c: self.current[i] == c or self.incorporate(prefix + hbytes([c]) + suffix)`
with `current[i]` read fresh and `prefix`/`suffix` snapshots. -/
def idxAccept (p : Pred) (i : Nat) (pre suf : Buffer) (t : ShrinkState) (c : Nat) :
    ShrinkState × Bool :=
  if t.current.getD i 0 = c then (t, true) else incorporate p t (pre ++ [c] ++ suf)

/-- Source `Lexical.shrink_indices`: for each byte position, hold the rest
fixed and delegate the byte's value to the Integer shrinker. -/
def shrink_indices (p : Pred) (s : ShrinkState) : ShrinkState :=
  (List.range s.current.length).foldl
    (fun t i =>
      Integer.shrink (t.current.getD i 0)
        (idxAccept p i (t.current.take i) (t.current.drop (i + 1))) false t) s

/-! ## The float hack (source `Lexical.float_hack`) -/

/-- A model of a Python double as far as `float_hack` inspects one:
NaN, positive infinity, or a finite value (rationals stand in for finite
doubles; `float_hack` only takes floors/ceilings, subtracts one and
compares with 2). -/
inductive FP where
  | nan : FP
  | inf : FP
  | finite : ℚ → FP
deriving DecidableEq

/-- Python `math.isnan`. -/
def FP.isnan : FP → Bool
  | .nan => true
  | _ => false

/-- Python `math.isinf`. -/
def FP.isinf : FP → Bool
  | .inf => true
  | _ => false

/-- Python `floor(f)` (only ever reached on finite values). -/
def FP.floorF : FP → FP
  | .finite q => .finite (⌊q⌋ : ℤ)
  | f => f

/-- Python `ceil(f)` (only ever reached on finite values). -/
def FP.ceilF : FP → FP
  | .finite q => .finite (⌈q⌉ : ℤ)
  | f => f

/-- Python `f > 2`. -/
def FP.gtTwo : FP → Bool
  | .finite q => decide (2 < q)
  | .inf => true
  | .nan => false

/-- Python `f - 1` (only ever reached on finite values). -/
def FP.subOne : FP → FP
  | .finite q => .finite (q - 1)
  | f => f

/-- Python `sys.float_info.max`, the maximum finite double. -/
def maxDouble : FP := .finite ((2 ^ 53 - 1) * 2 ^ 971)

/-- Modelled from the spec (§2, §6): the lexical float codec contract
(`float_to_lex`, `lex_to_float`, `is_simple` are imported by the source
from a module not in the source tree).  The control-flow theorems about
`float_hack` hold for every codec, so it is kept abstract as a parameter
rather than fixed to one implementation. -/
structure FloatCodec where
  float_to_lex : FP → Nat
  lex_to_float : Nat → FP
  is_simple : FP → Bool

/-- Source `Lexical.incorporate_float`: probe the encoding of `f`. -/
def incorporate_float (cod : FloatCodec) (p : Pred) (s : ShrinkState) (f : FP) :
    ShrinkState × Bool :=
  incorporate_int p s (cod.float_to_lex f)

/-- One iteration of `float_hack`'s loop over the standard large floats:
compute `j = float_to_lex g`; if `j < i` probe the encoding of `j`, and on
acceptance update the local pair `(i, f)` to `(j, g)`. -/
def floatStep (cod : FloatCodec) (p : Pred) (acc : ShrinkState × Nat × FP) (g : FP) :
    ShrinkState × Nat × FP :=
  let j := cod.float_to_lex g
  if j < acc.2.1 then
    let r := incorporate_int p acc.1 j
    if r.2 then (r.1, j, g) else (r.1, acc.2.1, acc.2.2)
  else acc

/-- The list `[float('nan'), float('inf'), sys.float_info.max]`, in source
order. -/
def floatSpecials : List FP := [FP.nan, FP.inf, maxDouble]

/-- Source `Lexical.float_hack`: applies only to 8-byte buffers whose top
bit is set; re-encodes simple floats; otherwise walks the standard large
floats, then (unless the tracked float became NaN/infinite) tries
`floor f`, `ceil f` and, when `f > 2`, `f - 1`. -/
def float_hack (cod : FloatCodec) (p : Pred) (s : ShrinkState) : ShrinkState :=
  if s.current.length ≠ 8 then s
  else if s.current.headD 0 >>> 7 = 0 then s
  else
    let i := valBE s.current
    let f := cod.lex_to_float i
    if cod.is_simple f then (incorporate_float cod p s f).1
    else
      let r := floatSpecials.foldl (floatStep cod p) (s, i, f)
      if r.2.2.isinf || r.2.2.isnan then r.1
      else
        let t2 := incorporate_float cod p r.1 r.2.2.floorF
        if t2.2 then t2.1
        else
          let t3 := incorporate_float cod p t2.1 r.2.2.ceilF
          if t3.2 then t3.1
          else if r.2.2.gtTwo then (incorporate_float cod p t3.1 r.2.2.subOne).1 else t3.1

/-! ## `sort`, `partial_sort` (source `Lexical.sort` / `Lexical.partial_sort`) -/

/-- Source `Lexical.sort`: one submission — the bytes of `current` sorted
ascending — via `consider`. -/
def sortB (p : Pred) (s : ShrinkState) : ShrinkState × Bool :=
  consider p s (List.insertionSort (· ≤ ·) s.current)

/-- An adjacent transposition of `l` at position `i` (a contiguous-segment
permutation). -/
def swapAdj (l : Buffer) (i : Nat) : Buffer :=
  l.take i ++ ((l.drop i).take 2).reverse ++ l.drop (i + 2)

/-- Candidate reorderings tried by the modelled reorder shrinker: the
fully sorted sequence and every adjacent transposition. -/
def reorderCandidates (seq : Buffer) : List Buffer :=
  List.insertionSort (· ≤ ·) seq :: (List.range (seq.length - 1)).map (swapAdj seq)

/-- Modelled from the spec (§6): `Ordering.shrink(sequence, accept, ...)`,
the Sequence Reorder Shrinker collaborator (not in the source tree).  It
offers contiguous-segment permutations of the passed sequence to the
acceptance function; the random source (segment choice only) is not
modelled. -/
def Ordering.shrink (seq : Buffer) (accept : ShrinkState → Buffer → ShrinkState × Bool)
    (s : ShrinkState) : ShrinkState :=
  (reorderCandidates seq).foldl (fun t c => (accept t c).1) s

/-- Source `Lexical.partial_sort` (renamed: delegates the buffer to the
reorder shrinker with `self.consider` as the acceptance function). -/
def psort (p : Pred) (s : ShrinkState) : ShrinkState :=
  Ordering.shrink s.current (consider p) s

/-! ## `short_circuit` (source `Lexical.short_circuit`) -/

/-- The binary search of `short_circuit` over the zero-prefix boundary,
with explicit fuel (each iteration strictly shrinks `hi - lo`, so any fuel
of at least `hi - lo` reproduces the source loop).  Returns the final
state together with the final `(lo, hi)`. -/
def scSearch (p : Pred) : Nat → ShrinkState → Nat → Nat → ShrinkState × Nat × Nat
  | 0, s, lo, hi => (s, lo, hi)
  | fuel + 1, s, lo, hi =>
    if lo + 1 < hi then
      let mid := (lo + hi) / 2
      let r := consider p s (List.replicate mid 0 ++ s.current.drop mid)
      if r.2 then scSearch p fuel r.1 mid hi else scSearch p fuel r.1 lo mid
    else (s, lo, hi)

/-- Source `Lexical.short_circuit`.  The second component is the returned
boolean; the third is ghost instrumentation recording the binary search's
final `lo` (`none` when the initial minimal-shape probes returned before
the search ran).  It does not affect behaviour. -/
def short_circuit (p : Pred) (s : ShrinkState) : ShrinkState × Bool × Option Nat :=
  let n := s.current.length
  let r1 := consider p s (List.replicate (n - 1) 0 ++ [0])
  if r1.2 then (r1.1, true, none)
  else
    let r2 := consider p r1.1 (List.replicate (n - 1) 0 ++ [1])
    if r2.2 then (r2.1, true, none)
    else
      let r := scSearch p n r2.1 0 (n - 1)
      if (r.1.current.take (r.1.current.length - 1)).all (· == 0) then
        (minimize_as_integer p r.1.full r.1, true, some r.2.1)
      else (r.1, false, some r.2.1)

/-! ## Heuristic operations and their sequencing -/

/-- One heuristic operation on a `ShrinkState` (the operations of
`Lexical.run_step` plus the `short_circuit` fast path). -/
inductive Op where
  | sortO : Op
  | floatO : FloatCodec → Op
  | shiftO : Op
  | indicesO : Op
  | rotateO : Op
  | minIntO : Bool → Op
  | reorderO : Op
  | shortO : Op

/-- Apply one heuristic operation.  For `rotateO` the source raises on an
all-zero buffer before issuing any probe; the state at the raise is the
entry state, which is what a caller observes. -/
def applyOp (op : Op) (p : Pred) (s : ShrinkState) : ShrinkState :=
  match op with
  | .sortO => (sortB p s).1
  | .floatO cod => float_hack cod p s
  | .shiftO => shift p s
  | .indicesO => shrink_indices p s
  | .rotateO => (rotate_suffixes p s).getD s
  | .minIntO full => minimize_as_integer p full s
  | .reorderO => psort p s
  | .shortO => (short_circuit p s).1

/-- Apply a sequence of heuristic operations in order. -/
def applyOps (p : Pred) (l : List Op) (s : ShrinkState) : ShrinkState :=
  l.foldl (fun t op => applyOp op p t) s

/-- Source `Lexical.run_step`: the fixed heuristic order of one step. -/
def run_step (cod : FloatCodec) (p : Pred) (s : ShrinkState) : ShrinkState :=
  applyOps p
    [Op.sortO, Op.floatO cod, Op.shiftO, Op.indicesO, Op.rotateO,
     Op.minIntO false, Op.reorderO] s

/-! ## Order and radix lemmas -/

theorem lexLt_nil (l : Buffer) : lexLt l [] = false := by
  cases l <;> rfl

theorem lexLt_cons (a b : Nat) (l r : Buffer) :
    lexLt (a :: l) (b :: r) = (decide (a < b) || (a == b && lexLt l r)) := rfl

theorem lexLt_irrefl (l : Buffer) : lexLt l l = false := by
  induction l with
  | nil => rfl
  | cons a t ih => simp [lexLt_cons, ih]

theorem lexLt_trans {a b c : Buffer} (h1 : lexLt a b = true) (h2 : lexLt b c = true) :
    lexLt a c = true := by
  induction a generalizing b c with
  | nil =>
    cases b with
    | nil => simp [lexLt_nil] at h1
    | cons y ys =>
      cases c with
      | nil => simp [lexLt_nil] at h2
      | cons z zs => rfl
  | cons x xs ih =>
    cases b with
    | nil => simp [lexLt_nil] at h1
    | cons y ys =>
      cases c with
      | nil => simp [lexLt_nil] at h2
      | cons z zs =>
        simp only [lexLt_cons, Bool.or_eq_true, Bool.and_eq_true, decide_eq_true_eq,
          beq_iff_eq] at h1 h2 ⊢
        rcases h1 with h1 | ⟨rfl, h1⟩
        · rcases h2 with h2 | ⟨rfl, _⟩
          · exact Or.inl (h1.trans h2)
          · exact Or.inl h1
        · rcases h2 with h2 | ⟨rfl, h2⟩
          · exact Or.inl h2
          · exact Or.inr ⟨rfl, ih h1 h2⟩

theorem lexLt_ne {a b : Buffer} (h : lexLt a b = true) : a ≠ b := by
  intro he
  subst he
  simp [lexLt_irrefl] at h

theorem valBE_lt (l : Buffer) (h : ∀ b ∈ l, b < 256) : valBE l < 256 ^ l.length := by
  induction l with
  | nil => simp [valBE]
  | cons b t ih =>
    have hb : b < 256 := h b (List.mem_cons_self b t)
    have ht : valBE t < 256 ^ t.length := ih fun x hx => h x (List.mem_cons_of_mem _ hx)
    have hb' : b ≤ 255 := by omega
    calc valBE (b :: t) = b * 256 ^ t.length + valBE t := rfl
    _ < b * 256 ^ t.length + 256 ^ t.length := by omega
    _ = (b + 1) * 256 ^ t.length := by ring
    _ ≤ 256 * 256 ^ t.length := by
        exact Nat.mul_le_mul_right _ (by omega)
    _ = 256 ^ (t.length + 1) := by ring
    _ = 256 ^ (b :: t).length := by simp

theorem valBE_lt_of_lexLt {a b : Buffer} (hlen : a.length = b.length)
    (ha : ∀ x ∈ a, x < 256) (h : lexLt a b = true) : valBE a < valBE b := by
  induction a generalizing b with
  | nil =>
    cases b with
    | nil => simp [lexLt_nil] at h
    | cons y ys => simp at hlen
  | cons x xs ih =>
    cases b with
    | nil => simp [lexLt_nil] at h
    | cons y ys =>
      simp only [List.length_cons, Nat.succ_inj] at hlen
      simp only [lexLt_cons, Bool.or_eq_true, Bool.and_eq_true, decide_eq_true_eq,
        beq_iff_eq] at h
      have hxs : ∀ x ∈ xs, x < 256 := fun z hz => ha z (List.mem_cons_of_mem _ hz)
      rcases h with h | ⟨rfl, h⟩
      · have h1 : valBE xs < 256 ^ xs.length := valBE_lt xs hxs
        calc valBE (x :: xs) = x * 256 ^ xs.length + valBE xs := rfl
        _ < x * 256 ^ xs.length + 256 ^ xs.length := by omega
        _ = (x + 1) * 256 ^ xs.length := by ring
        _ ≤ y * 256 ^ xs.length := Nat.mul_le_mul_right _ (by omega)
        _ = y * 256 ^ ys.length := by rw [hlen]
        _ ≤ valBE (y :: ys) := Nat.le_add_right _ _
      · have := ih hlen hxs h
        show x * 256 ^ xs.length + valBE xs < x * 256 ^ ys.length + valBE ys
        rw [hlen]
        omega

theorem lexLt_of_valBE_lt {a b : Buffer} (hlen : a.length = b.length)
    (ha : ∀ x ∈ a, x < 256) (hb : ∀ x ∈ b, x < 256) (h : valBE a < valBE b) :
    lexLt a b = true := by
  induction a generalizing b with
  | nil =>
    cases b with
    | nil => simp [valBE] at h
    | cons y ys => simp at hlen
  | cons x xs ih =>
    cases b with
    | nil => simp at hlen
    | cons y ys =>
      simp only [List.length_cons, Nat.succ_inj] at hlen
      have hxs : ∀ z ∈ xs, z < 256 := fun z hz => ha z (List.mem_cons_of_mem _ hz)
      have hys : ∀ z ∈ ys, z < 256 := fun z hz => hb z (List.mem_cons_of_mem _ hz)
      rcases Nat.lt_trichotomy x y with hxy | hxy | hxy
      · simp [lexLt_cons, hxy]
      · subst hxy
        have : valBE xs < valBE ys := by
          have hx : valBE (x :: xs) = x * 256 ^ ys.length + valBE xs := by
            show x * 256 ^ xs.length + valBE xs = _
            rw [hlen]
          have hy : valBE (x :: ys) = x * 256 ^ ys.length + valBE ys := rfl
          rw [hx, hy] at h
          omega
        simp [lexLt_cons, ih hlen hxs hys this]
      · exfalso
        have hba : lexLt (y :: ys) (x :: xs) = true := by simp [lexLt_cons, hxy]
        have hv := valBE_lt_of_lexLt (a := y :: ys) (b := x :: xs)
          (by simp [hlen]) hb hba
        omega

theorem int_to_bytes_length (i n : Nat) : (int_to_bytes i n).length = n := by
  induction n generalizing i with
  | zero => rfl
  | succ n ih => simp [int_to_bytes, ih]

theorem int_to_bytes_lt (i n : Nat) : ∀ b ∈ int_to_bytes i n, b < 256 := by
  induction n generalizing i with
  | zero => simp [int_to_bytes]
  | succ n ih =>
    intro b hb
    simp only [int_to_bytes, List.mem_cons] at hb
    rcases hb with rfl | hb
    · exact Nat.mod_lt _ (by norm_num)
    · exact ih _ b hb

theorem int_to_bytes_valBE (l : Buffer) (h : ∀ b ∈ l, b < 256) :
    int_to_bytes (valBE l) l.length = l := by
  induction l with
  | nil => rfl
  | cons b t ih =>
    have hb : b < 256 := h b (List.mem_cons_self b t)
    have ht : valBE t < 256 ^ t.length :=
      valBE_lt t fun x hx => h x (List.mem_cons_of_mem _ hx)
    have hq : 0 < 256 ^ t.length := pow_pos (by norm_num) _
    show int_to_bytes (b * 256 ^ t.length + valBE t) (t.length + 1) = b :: t
    have e1 : b * 256 ^ t.length + valBE t = valBE t + 256 ^ t.length * b := by ring
    simp only [int_to_bytes, e1]
    congr 1
    · rw [Nat.add_mul_div_left _ _ hq, Nat.div_eq_of_lt ht, Nat.zero_add,
        Nat.mod_eq_of_lt hb]
    · rw [Nat.add_mul_mod_self_left, Nat.mod_eq_of_lt ht]
      exact ih fun x hx => h x (List.mem_cons_of_mem _ hx)

theorem valBE_int_to_bytes (i n : Nat) (h : i < 256 ^ n) :
    valBE (int_to_bytes i n) = i := by
  induction n generalizing i with
  | zero =>
    simp only [pow_zero, Nat.lt_one_iff] at h
    simp [int_to_bytes, valBE, h]
  | succ n ih =>
    have hq : 0 < 256 ^ n := pow_pos (by norm_num) _
    have h2 : i % 256 ^ n < 256 ^ n := Nat.mod_lt _ hq
    have h3 : i / 256 ^ n < 256 := by
      rw [Nat.div_lt_iff_lt_mul hq]
      calc i < 256 ^ (n + 1) := h
      _ = 256 * 256 ^ n := by ring
    simp only [int_to_bytes, valBE, int_to_bytes_length, ih _ h2, Nat.mod_eq_of_lt h3]
    rw [Nat.mul_comm]
    exact Nat.div_add_mod i (256 ^ n)

/-! ## The evolution invariant

`Evolve p s t` records everything the probe protocol guarantees about a
state `t` reached from `s` by heuristic work: the length of `current` is
unchanged; `current` is either untouched or strictly lexicographically
smaller, satisfying the predicate, with `changes` strictly increased; byte
bounds are preserved; every newly length-checked candidate has the right
length (for nonempty buffers); the cache stays coherent with the
predicate; cached failures stay cached; and a buffer cached as failing is
never submitted to the predicate again. -/

structure Evolve (p : Pred) (s t : ShrinkState) : Prop where
  lenE : t.current.length = s.current.length
  currE : (t.current = s.current ∧ t.changes = s.changes) ∨
    (lexLt t.current s.current = true ∧ p t.current = true ∧ s.changes < t.changes)
  bytesE : (∀ b ∈ s.current, b < 256) → ∀ b ∈ t.current, b < 256
  triedE : ∀ c ∈ t.tried, c ∈ s.tried ∨ (0 < s.current.length → c.length = s.current.length)
  cacheCoh : (∀ e ∈ s.cache, p e.1 = e.2) → ∀ e ∈ t.cache, p e.1 = e.2
  cacheLZ : ∀ c, cacheLookup s.cache c = some false → cacheLookup t.cache c = some false
  noResub : ∀ c, cacheLookup s.cache c = some false → t.calls.count c = s.calls.count c

theorem Evolve.changes_le {p : Pred} {s t : ShrinkState} (h : Evolve p s t) :
    s.changes ≤ t.changes := by
  rcases h.currE with ⟨_, h2⟩ | ⟨_, _, h2⟩
  · omega
  · omega

theorem Evolve.sat {p : Pred} {s t : ShrinkState} (h : Evolve p s t)
    (hp : p s.current = true) : p t.current = true := by
  rcases h.currE with ⟨h1, _⟩ | ⟨_, h1, _⟩
  · rw [h1]; exact hp
  · exact h1

theorem Evolve.refl (p : Pred) (s : ShrinkState) : Evolve p s s where
  lenE := rfl
  currE := Or.inl ⟨rfl, rfl⟩
  bytesE := fun h => h
  triedE := fun _ hc => Or.inl hc
  cacheCoh := fun h => h
  cacheLZ := fun _ hc => hc
  noResub := fun _ _ => rfl

theorem Evolve.trans {p : Pred} {s t u : ShrinkState}
    (h1 : Evolve p s t) (h2 : Evolve p t u) : Evolve p s u where
  lenE := h2.lenE.trans h1.lenE
  currE := by
    rcases h2.currE with ⟨e1, e2⟩ | ⟨e1, e2, e3⟩
    · rcases h1.currE with ⟨f1, f2⟩ | ⟨f1, f2, f3⟩
      · exact Or.inl ⟨e1.trans f1, e2.trans f2⟩
      · exact Or.inr ⟨e1 ▸ f1, e1 ▸ f2, by omega⟩
    · rcases h1.currE with ⟨f1, f2⟩ | ⟨f1, f2, f3⟩
      · exact Or.inr ⟨f1 ▸ e1, e2, by omega⟩
      · exact Or.inr ⟨lexLt_trans e1 f1, e2, by omega⟩
  bytesE := fun h => h2.bytesE (h1.bytesE h)
  triedE := by
    intro c hc
    rcases h2.triedE c hc with hm | hl
    · exact h1.triedE c hm
    · exact Or.inr fun hpos => by
        rw [← h1.lenE] at hpos ⊢
        exact hl hpos
  cacheCoh := fun h => h2.cacheCoh (h1.cacheCoh h)
  cacheLZ := fun c hc => h2.cacheLZ c (h1.cacheLZ c hc)
  noResub := fun c hc => (h2.noResub c (h1.cacheLZ c hc)).trans (h1.noResub c hc)

/-- Extending an evolution by a bare gateway submission (the candidate is
length-checked and logged but nothing else changes). -/
theorem Evolve.triedExt {p : Pred} {s t : ShrinkState} (he : Evolve p s t) (cand : Buffer)
    (hlen : 0 < s.current.length → cand.length = s.current.length) :
    Evolve p s { t with tried := cand :: t.tried } where
  lenE := he.lenE
  currE := he.currE
  bytesE := he.bytesE
  triedE := by
    intro c hc
    rcases List.mem_cons.mp hc with rfl | hc
    · exact Or.inr hlen
    · exact he.triedE c hc
  cacheCoh := he.cacheCoh
  cacheLZ := he.cacheLZ
  noResub := he.noResub

/-- Extending an evolution by one `incorporate` call on a candidate of the
preserved length with in-range bytes. -/
theorem Evolve.inc {p : Pred} {s t : ShrinkState} (he : Evolve p s t) (cand : Buffer)
    (hlen : 0 < s.current.length → cand.length = s.current.length)
    (hb : (∀ b ∈ s.current, b < 256) → ∀ b ∈ cand, b < 256) :
    Evolve p s (incorporate p t cand).1 := by
  unfold incorporate
  by_cases h1 : cand = t.current
  · simp only [if_pos h1]
    exact he.triedExt cand hlen
  by_cases h2 : lexLt cand t.current = false
  · simp only [if_neg h1, if_pos h2]
    exact he.triedExt cand hlen
  by_cases h3 : cacheLookup t.cache cand = some false
  · simp only [if_neg h1, if_neg h2, if_pos h3]
    exact he.triedExt cand hlen
  have hlex : lexLt cand t.current = true := by
    simpa using h2
  have hne : ∀ c, cacheLookup s.cache c = some false → cand ≠ c := by
    intro c hc hcc
    exact h3 (hcc ▸ he.cacheLZ c hc)
  by_cases hr : p cand = true
  · simp only [if_neg h1, if_neg h2, if_neg h3, hr, reduceIte]
    have hne0 : t.current ≠ [] := by
      intro h0
      rw [h0, lexLt_nil] at hlex
      exact absurd hlex (by simp)
    have hpos : 0 < s.current.length := by
      rw [← he.lenE]
      exact List.length_pos.mpr hne0
    exact
      { lenE := (hlen hpos).symm ▸ rfl
        currE := by
          refine Or.inr ⟨?_, hr, ?_⟩
          · rcases he.currE with ⟨f1, _⟩ | ⟨f1, _, _⟩
            · exact f1 ▸ hlex
            · exact lexLt_trans hlex f1
          · have := he.changes_le
            show s.changes < t.changes + 1
            omega
        bytesE := fun h => hb h
        triedE := by
          intro c hc
          rcases List.mem_cons.mp hc with rfl | hc
          · exact Or.inr hlen
          · exact he.triedE c hc
        cacheCoh := by
          intro h e hee
          rcases List.mem_cons.mp hee with rfl | hee
          · exact hr
          · exact he.cacheCoh h e hee
        cacheLZ := by
          intro c hc
          have hx := he.cacheLZ c hc
          simp only [cacheLookup, if_neg (hne c hc)]
          exact hx
        noResub := by
          intro c hc
          rw [List.count_cons_of_ne (fun h => hne c hc h.symm)]
          exact he.noResub c hc }
  · have hr' : p cand = false := by
      simpa using hr
    simp only [if_neg h1, if_neg h2, if_neg h3, hr', Bool.false_eq_true, reduceIte]
    exact
      { lenE := he.lenE
        currE := he.currE
        bytesE := he.bytesE
        triedE := by
          intro c hc
          rcases List.mem_cons.mp hc with rfl | hc
          · exact Or.inr hlen
          · exact he.triedE c hc
        cacheCoh := by
          intro h e hee
          rcases List.mem_cons.mp hee with rfl | hee
          · exact hr'
          · exact he.cacheCoh h e hee
        cacheLZ := by
          intro c hc
          by_cases hcc : cand = c
          · subst hcc
            simp [cacheLookup]
          · simp only [cacheLookup, if_neg hcc]
            exact he.cacheLZ c hc
        noResub := by
          intro c hc
          rw [List.count_cons_of_ne (fun h => hne c hc h.symm)]
          exact he.noResub c hc }

/-- Extending an evolution by one `consider` call. -/
theorem Evolve.cons {p : Pred} {s t : ShrinkState} (he : Evolve p s t) (cand : Buffer)
    (hlen : 0 < s.current.length → cand.length = s.current.length)
    (hb : (∀ b ∈ s.current, b < 256) → ∀ b ∈ cand, b < 256) :
    Evolve p s (consider p t cand).1 := by
  unfold consider
  by_cases h : cand = t.current
  · simp only [if_pos h]
    exact he
  · simp only [if_neg h]
    exact he.inc cand hlen hb

/-- Folding evolution-preserving steps preserves evolution. -/
theorem evolve_foldl {α : Type} {p : Pred} {s : ShrinkState} (f : ShrinkState → α → ShrinkState)
    (l : List α) (hf : ∀ t a, a ∈ l → Evolve p s t → Evolve p s (f t a)) :
    ∀ t, Evolve p s t → Evolve p s (l.foldl f t) := by
  induction l with
  | nil => intro t ht; simpa using ht
  | cons a l ih =>
    intro t ht
    simp only [List.foldl_cons]
    exact ih (fun t' a' ha' ht' => hf t' a' (List.mem_cons_of_mem _ ha') ht') _
      (hf t a (List.mem_cons_self _ _) ht)

/-! ## Small facts about `incorporate` and list access -/

theorem incorporate_of_blocked {p : Pred} {t : ShrinkState} {cand : Buffer}
    (h : cand = t.current ∨ lexLt cand t.current = false ∨
      cacheLookup t.cache cand = some false) :
    incorporate p t cand = ({ t with tried := cand :: t.tried }, false) := by
  unfold incorporate
  rcases h with h | h | h
  · rw [if_pos h]
  · by_cases h1 : cand = t.current
    · rw [if_pos h1]
    · rw [if_neg h1, if_pos h]
  · by_cases h1 : cand = t.current
    · rw [if_pos h1]
    by_cases h2 : lexLt cand t.current = false
    · rw [if_neg h1, if_pos h2]
    · rw [if_neg h1, if_neg h2, if_pos h]

theorem incorporate_probe_true {p : Pred} {t : ShrinkState} {cand : Buffer}
    (h1 : cand ≠ t.current) (h2 : lexLt cand t.current = true)
    (h3 : cacheLookup t.cache cand ≠ some false) (hr : p cand = true) :
    incorporate p t cand =
      ({ t with
        current := cand, changes := t.changes + 1,
        cache := (cand, true) :: t.cache, calls := cand :: t.calls,
        tried := cand :: t.tried }, true) := by
  unfold incorporate
  simp only [if_neg h1, if_neg (by simp [h2] : ¬lexLt cand t.current = false), if_neg h3,
    hr, reduceIte]

theorem incorporate_probe_false {p : Pred} {t : ShrinkState} {cand : Buffer}
    (h1 : cand ≠ t.current) (h2 : lexLt cand t.current = true)
    (h3 : cacheLookup t.cache cand ≠ some false) (hr : p cand = false) :
    incorporate p t cand =
      ({ t with
        cache := (cand, false) :: t.cache, calls := cand :: t.calls,
        tried := cand :: t.tried }, false) := by
  unfold incorporate
  simp only [if_neg h1, if_neg (by simp [h2] : ¬lexLt cand t.current = false), if_neg h3,
    hr, Bool.false_eq_true, reduceIte]

/-- Case analysis on one `incorporate` call: it is blocked, or probes and
rejects, or probes and accepts. -/
theorem incorporate_cases (p : Pred) (t : ShrinkState) (cand : Buffer) :
    (incorporate p t cand = ({ t with tried := cand :: t.tried }, false)) ∨
    (p cand = false ∧ incorporate p t cand =
      ({ t with
        cache := (cand, false) :: t.cache, calls := cand :: t.calls,
        tried := cand :: t.tried }, false)) ∨
    (p cand = true ∧ lexLt cand t.current = true ∧ incorporate p t cand =
      ({ t with
        current := cand, changes := t.changes + 1,
        cache := (cand, true) :: t.cache, calls := cand :: t.calls,
        tried := cand :: t.tried }, true)) := by
  by_cases h1 : cand = t.current
  · exact Or.inl (incorporate_of_blocked (Or.inl h1))
  by_cases h2 : lexLt cand t.current = false
  · exact Or.inl (incorporate_of_blocked (Or.inr (Or.inl h2)))
  by_cases h3 : cacheLookup t.cache cand = some false
  · exact Or.inl (incorporate_of_blocked (Or.inr (Or.inr h3)))
  have h2' : lexLt cand t.current = true := by simpa using h2
  by_cases hr : p cand = true
  · exact Or.inr (Or.inr ⟨hr, h2', incorporate_probe_true h1 h2' h3 hr⟩)
  · have hr' : p cand = false := by simpa using hr
    exact Or.inr (Or.inl ⟨hr', incorporate_probe_false h1 h2' h3 hr'⟩)

theorem incorporate_probe {p : Pred} {t : ShrinkState} {cand : Buffer}
    (h1 : cand ≠ t.current) (h2 : lexLt cand t.current = true)
    (h3 : cacheLookup t.cache cand ≠ some false) :
    (incorporate p t cand).2 = p cand := by
  by_cases hr : p cand = true
  · rw [incorporate_probe_true h1 h2 h3 hr, hr]
  · have hr' : p cand = false := by simpa using hr
    rw [incorporate_probe_false h1 h2 h3 hr', hr']

theorem incorporate_changes_le (p : Pred) (t : ShrinkState) (cand : Buffer) :
    t.changes ≤ (incorporate p t cand).1.changes := by
  rcases incorporate_cases p t cand with he | ⟨_, he⟩ | ⟨_, _, he⟩
  · rw [he]
  · rw [he]
  · rw [he]
    show t.changes ≤ t.changes + 1
    omega

theorem incorporate_false_state {p : Pred} {t : ShrinkState} {cand : Buffer}
    (h : (incorporate p t cand).2 = false) :
    (incorporate p t cand).1.current = t.current ∧
    (incorporate p t cand).1.changes = t.changes ∧
    ((incorporate p t cand).1.cache = t.cache ∨
      (incorporate p t cand).1.cache = (cand, false) :: t.cache ∧ p cand = false) := by
  rcases incorporate_cases p t cand with he | ⟨hp, he⟩ | ⟨_, _, he⟩
  · simp [he]
  · simp [he, hp]
  · rw [he] at h
    simp at h

theorem incorporate_true_changes {p : Pred} {t : ShrinkState} {cand : Buffer}
    (h : (incorporate p t cand).2 = true) :
    (incorporate p t cand).1.changes = t.changes + 1 := by
  rcases incorporate_cases p t cand with he | ⟨_, he⟩ | ⟨_, _, he⟩
  · rw [he] at h; simp at h
  · rw [he] at h; simp at h
  · rw [he]

theorem incorporate_calls_shape (p : Pred) (t : ShrinkState) (cand : Buffer) :
    (incorporate p t cand).1.calls = t.calls ∨
    (incorporate p t cand).1.calls = cand :: t.calls := by
  rcases incorporate_cases p t cand with he | ⟨_, he⟩ | ⟨_, _, he⟩
  · simp [he]
  · simp [he]
  · simp [he]

theorem getD_lt : ∀ (l : Buffer) (i : Nat), (∀ b ∈ l, b < 256) → l.getD i 0 < 256
  | [], i, _ => by simp [List.getD]
  | b :: l, 0, h => by simpa using h b (List.mem_cons_self b l)
  | b :: l, i + 1, h => by
    simpa using getD_lt l i fun x hx => h x (List.mem_cons_of_mem _ hx)

/-! ## Evolution lemmas for each heuristic -/

theorem evolve_descend {p : Pred} {s : ShrinkState}
    (accept : ShrinkState → Nat → ShrinkState × Bool) (v0 : Nat)
    (hacc : ∀ t c, c ≤ v0 → Evolve p s t → Evolve p s (accept t c).1) :
    ∀ fuel v t, v ≤ v0 → Evolve p s t → Evolve p s (Integer.descend accept fuel v t) := by
  intro fuel
  induction fuel with
  | zero => intro v t _ ht; exact ht
  | succ fuel ih =>
    intro v t hv ht
    simp only [Integer.descend]
    by_cases hv0 : v = 0
    · simp only [if_pos hv0]
      exact ht
    simp only [if_neg hv0]
    have h1 := hacc t (v - 1) (by omega) ht
    by_cases hr : (accept t (v - 1)).2 = true
    · simp only [hr, reduceIte]
      exact ih (v - 1) _ (by omega) h1
    · have hr' : (accept t (v - 1)).2 = false := by simpa using hr
      simp only [hr', Bool.false_eq_true, reduceIte]
      exact h1

theorem evolve_integer {p : Pred} {s : ShrinkState} (v : Nat)
    (accept : ShrinkState → Nat → ShrinkState × Bool) (full : Bool)
    (hacc : ∀ t c, c ≤ v → Evolve p s t → Evolve p s (accept t c).1)
    (t : ShrinkState) (ht : Evolve p s t) :
    Evolve p s (Integer.shrink v accept full t) := by
  unfold Integer.shrink
  have h0 := hacc t 0 (Nat.zero_le _) ht
  by_cases hr : (accept t 0).2 = true
  · simp only [hr, reduceIte]
    exact h0
  · have hr' : (accept t 0).2 = false := by simpa using hr
    simp only [hr', Bool.false_eq_true, reduceIte]
    exact evolve_descend accept v hacc v v _ (le_refl v) h0

theorem evolve_sortB (p : Pred) (s : ShrinkState) : Evolve p s (sortB p s).1 := by
  apply (Evolve.refl p s).cons
  · intro _
    exact List.length_insertionSort (· ≤ ·) s.current
  · intro h b hb
    exact h b ((List.perm_insertionSort (· ≤ ·) s.current).mem_iff.mp hb)

theorem evolve_shiftTryK {p : Pred} {s : ShrinkState} (block : Buffer) (i c : Nat)
    (hblen : 0 < s.current.length → block.length = s.current.length)
    (hbl : (∀ b ∈ s.current, b < 256) → ∀ b ∈ block, b < 256)
    (hc : (∀ b ∈ s.current, b < 256) → c < 256) :
    ∀ k t, Evolve p s t → Evolve p s (shiftTryK p block i c k t) := by
  intro k
  induction k with
  | zero => intro t ht; exact ht
  | succ k ih =>
    intro t ht
    simp only [shiftTryK]
    have h1 : Evolve p s (incorporate p t (block.set i (c >>> (k + 1)))).1 := by
      apply ht.inc
      · intro hpos
        rw [List.length_set]
        exact hblen hpos
      · intro h b hb
        rcases List.mem_or_eq_of_mem_set hb with h' | rfl
        · exact hbl h b h'
        · have hle : c >>> (k + 1) ≤ c := by
            rw [Nat.shiftRight_eq_div_pow]
            exact Nat.div_le_self _ _
          exact lt_of_le_of_lt hle (hc h)
    by_cases hr : (incorporate p t (block.set i (c >>> (k + 1)))).2 = true
    · simp only [hr, reduceIte]
      exact h1
    · have hr' : (incorporate p t (block.set i (c >>> (k + 1)))).2 = false := by simpa using hr
      simp only [hr', Bool.false_eq_true, reduceIte]
      exact ih _ h1

theorem evolve_shiftIndex {p : Pred} {s : ShrinkState} (i : Nat) :
    ∀ t, Evolve p s t → Evolve p s (shiftIndex p t i) := by
  intro t ht
  unfold shiftIndex
  apply evolve_shiftTryK t.current i (t.current.getD i 0)
    (fun _ => ht.lenE) ht.bytesE
    (fun h => getD_lt t.current i (ht.bytesE h)) _ t ht

theorem evolve_shiftPass {p : Pred} {s : ShrinkState} :
    ∀ t, Evolve p s t → Evolve p s (shiftPass p t) := by
  intro t ht
  unfold shiftPass
  exact evolve_foldl _ _ (fun t' i _ ht' => evolve_shiftIndex i t' ht') t ht

theorem evolve_shiftLoop {p : Pred} {s : ShrinkState} :
    ∀ fuel t, Evolve p s t → Evolve p s (shiftLoop p fuel t) := by
  intro fuel
  induction fuel with
  | zero => intro t ht; exact ht
  | succ fuel ih =>
    intro t ht
    simp only [shiftLoop]
    by_cases h : (shiftPass p t).changes = t.changes
    · simp only [if_pos h]
      exact evolve_shiftPass t ht
    · simp only [if_neg h]
      exact ih _ (evolve_shiftPass t ht)

theorem evolve_shift (p : Pred) (s : ShrinkState) : Evolve p s (shift p s) :=
  evolve_shiftLoop _ s (Evolve.refl p s)

theorem firstNonzero_lt : ∀ (l : Buffer) (sig : Nat), firstNonzero l = some sig →
    sig < l.length := by
  intro l
  induction l with
  | nil => intro sig h; simp [firstNonzero] at h
  | cons b t ih =>
    intro sig h
    simp only [firstNonzero] at h
    by_cases hb : b ≠ 0
    · rw [if_pos hb] at h
      simp only [Option.some_inj] at h
      simp [← h]
    · rw [if_neg hb] at h
      rcases Option.map_eq_some'.mp h with ⟨k, hk, rfl⟩
      have := ih k hk
      simp
      omega

theorem firstNonzero_none : ∀ l : Buffer, firstNonzero l = none ↔ ∀ b ∈ l, b = 0 := by
  intro l
  induction l with
  | nil => simp [firstNonzero]
  | cons b t ih =>
    simp only [firstNonzero]
    by_cases hb : b ≠ 0
    · rw [if_pos hb]
      simp [hb]
    · rw [if_neg hb]
      push_neg at hb
      simp [hb, Option.map_eq_none', ih]

theorem evolve_rotateStep {p : Pred} {s : ShrinkState} (sig i : Nat)
    (hsig : sig < s.current.length) (_hi1 : 1 ≤ i) (hi2 : sig + i < s.current.length) :
    ∀ t, Evolve p s t → Evolve p s (rotateStep p sig t i) := by
  intro t ht
  unfold rotateStep
  by_cases h : lexLt (rotatedAt sig t.current i) t.current = true
  · simp only [h, reduceIte]
    apply ht.inc
    · intro _
      have hlen : t.current.length = s.current.length := ht.lenE
      simp only [rotatedAt, List.length_append, List.length_replicate, List.length_drop,
        List.length_take]
      omega
    · intro h' b hb
      have hcur := ht.bytesE h'
      simp only [rotatedAt, List.mem_append] at hb
      rcases hb with (hb | hb) | hb
      · have := List.eq_of_mem_replicate hb
        omega
      · exact hcur b (List.drop_subset _ _ hb)
      · exact hcur b (List.drop_subset _ _ (List.take_subset _ _ hb))
  · have h' : lexLt (rotatedAt sig t.current i) t.current = false := by simpa using h
    simp only [h', Bool.false_eq_true, reduceIte]
    exact ht

theorem evolve_rotate (p : Pred) (s : ShrinkState) :
    Evolve p s ((rotate_suffixes p s).getD s) := by
  unfold rotate_suffixes
  cases hf : firstNonzero s.current with
  | none => exact Evolve.refl p s
  | some sig =>
    simp only [Option.getD_some]
    have hsig := firstNonzero_lt _ _ hf
    apply evolve_foldl _ _ _ s (Evolve.refl p s)
    intro t i hi ht
    rcases List.mem_range'_1.mp hi with ⟨h1, h2⟩
    exact evolve_rotateStep sig i hsig h1 (by omega) t ht

theorem evolve_minimize {p : Pred} {s : ShrinkState} (full : Bool) :
    ∀ t, Evolve p s t → Evolve p s (minimize_as_integer p full t) := by
  intro t ht
  unfold minimize_as_integer
  apply evolve_integer _ _ _ _ t ht
  intro t' c _ ht'
  unfold intAccept
  by_cases h : c = valBE t'.current
  · simp only [if_pos h]
    exact ht'
  · simp only [if_neg h]
    unfold incorporate_int
    apply ht'.inc
    · intro _
      rw [int_to_bytes_length]
      exact ht'.lenE
    · intro _ b hb
      exact int_to_bytes_lt _ _ b hb

theorem evolve_shrink_indices (p : Pred) (s : ShrinkState) :
    Evolve p s (shrink_indices p s) := by
  unfold shrink_indices
  apply evolve_foldl _ _ _ s (Evolve.refl p s)
  intro t i hi ht
  have hi' : i < s.current.length := List.mem_range.mp hi
  apply evolve_integer _ _ _ _ t ht
  intro t' c hc ht'
  unfold idxAccept
  by_cases h : t'.current.getD i 0 = c
  · simp only [if_pos h]
    exact ht'
  · simp only [if_neg h]
    apply ht'.inc
    · intro _
      have hlen : t.current.length = s.current.length := ht.lenE
      simp only [List.length_append, List.length_take, List.length_drop,
        List.length_cons, List.length_nil]
      omega
    · intro hby b hb
      have hcur := ht.bytesE hby
      simp only [List.mem_append, List.mem_singleton] at hb
      rcases hb with (hb | rfl) | hb
      · exact hcur b (List.take_subset _ _ hb)
      · calc b ≤ t.current.getD i 0 := hc
        _ < 256 := getD_lt _ _ hcur
      · exact hcur b (List.drop_subset _ _ hb)

theorem evolve_incorporate_int {p : Pred} {s : ShrinkState} :
    ∀ t i, Evolve p s t → Evolve p s (incorporate_int p t i).1 := by
  intro t i ht
  unfold incorporate_int
  apply ht.inc
  · intro _
    rw [int_to_bytes_length]
    exact ht.lenE
  · intro _ b hb
    exact int_to_bytes_lt _ _ b hb

theorem evolve_incorporate_float {p : Pred} {s : ShrinkState} (cod : FloatCodec) :
    ∀ t f, Evolve p s t → Evolve p s (incorporate_float cod p t f).1 := by
  intro t f ht
  unfold incorporate_float
  exact evolve_incorporate_int _ _ ht

theorem evolve_floatStep {p : Pred} {s : ShrinkState} (cod : FloatCodec) :
    ∀ (acc : ShrinkState × Nat × FP) (g : FP), Evolve p s acc.1 →
      Evolve p s (floatStep cod p acc g).1 := by
  intro acc g ht
  unfold floatStep
  by_cases hj : cod.float_to_lex g < acc.2.1
  · simp only [if_pos hj]
    have h1 := evolve_incorporate_int acc.1 (cod.float_to_lex g) ht
    by_cases hr : (incorporate_int p acc.1 (cod.float_to_lex g)).2 = true
    · simp only [hr, reduceIte]
      exact h1
    · have hr' : (incorporate_int p acc.1 (cod.float_to_lex g)).2 = false := by simpa using hr
      simp only [hr', Bool.false_eq_true, reduceIte]
      exact h1
  · simp only [if_neg hj]
    exact ht

theorem evolve_floatFold {p : Pred} {s : ShrinkState} (cod : FloatCodec) :
    ∀ (l : List FP) (acc : ShrinkState × Nat × FP), Evolve p s acc.1 →
      Evolve p s (l.foldl (floatStep cod p) acc).1 := by
  intro l
  induction l with
  | nil => intro acc h; exact h
  | cons g l ih =>
    intro acc h
    simp only [List.foldl_cons]
    exact ih _ (evolve_floatStep cod acc g h)

theorem evolve_float (cod : FloatCodec) (p : Pred) (s : ShrinkState) :
    Evolve p s (float_hack cod p s) := by
  unfold float_hack
  by_cases h8 : s.current.length ≠ 8
  · simp only [if_pos h8]
    exact Evolve.refl p s
  simp only [if_neg h8]
  by_cases htop : s.current.headD 0 >>> 7 = 0
  · simp only [if_pos htop]
    exact Evolve.refl p s
  simp only [if_neg htop]
  by_cases hsimp : cod.is_simple (cod.lex_to_float (valBE s.current)) = true
  · simp only [hsimp, reduceIte]
    exact evolve_incorporate_float cod s _ (Evolve.refl p s)
  have hsimp' : cod.is_simple (cod.lex_to_float (valBE s.current)) = false := by
    simpa using hsimp
  simp only [hsimp', Bool.false_eq_true, reduceIte]
  have hfold := evolve_floatFold cod floatSpecials
    (s, valBE s.current, cod.lex_to_float (valBE s.current)) (Evolve.refl p s)
  generalize hgen : floatSpecials.foldl (floatStep cod p)
    (s, valBE s.current, cod.lex_to_float (valBE s.current)) = r0
  rw [hgen] at hfold
  by_cases hc1 : (r0.2.2.isinf || r0.2.2.isnan) = true
  · simp only [hc1, reduceIte]
    exact hfold
  have hc1' : (r0.2.2.isinf || r0.2.2.isnan) = false := by simpa using hc1
  simp only [hc1', Bool.false_eq_true, reduceIte]
  have h2 := evolve_incorporate_float cod r0.1 r0.2.2.floorF hfold
  by_cases ht2 : (incorporate_float cod p r0.1 r0.2.2.floorF).2 = true
  · simp only [ht2, reduceIte]
    exact h2
  have ht2' : (incorporate_float cod p r0.1 r0.2.2.floorF).2 = false := by simpa using ht2
  simp only [ht2', Bool.false_eq_true, reduceIte]
  have h3 := evolve_incorporate_float cod _ r0.2.2.ceilF h2
  by_cases ht3 : (incorporate_float cod p (incorporate_float cod p r0.1 r0.2.2.floorF).1
      r0.2.2.ceilF).2 = true
  · simp only [ht3, reduceIte]
    exact h3
  have ht3' : (incorporate_float cod p (incorporate_float cod p r0.1 r0.2.2.floorF).1
      r0.2.2.ceilF).2 = false := by simpa using ht3
  simp only [ht3', Bool.false_eq_true, reduceIte]
  by_cases htw : r0.2.2.gtTwo = true
  · simp only [htw, reduceIte]
    exact evolve_incorporate_float cod _ r0.2.2.subOne h3
  · have htw' : r0.2.2.gtTwo = false := by simpa using htw
    simp only [htw', Bool.false_eq_true, reduceIte]
    exact h3

theorem swapAdj_length (l : Buffer) (i : Nat) : (swapAdj l i).length = l.length := by
  simp only [swapAdj, List.length_append, List.length_take, List.length_drop,
    List.length_reverse]
  omega

theorem swapAdj_mem {l : Buffer} {i : Nat} {b : Nat} (hb : b ∈ swapAdj l i) : b ∈ l := by
  simp only [swapAdj, List.mem_append, List.mem_reverse] at hb
  rcases hb with (hb | hb) | hb
  · exact List.take_subset _ _ hb
  · exact List.drop_subset _ _ (List.take_subset _ _ hb)
  · exact List.drop_subset _ _ hb

theorem evolve_psort (p : Pred) (s : ShrinkState) : Evolve p s (psort p s) := by
  unfold psort Ordering.shrink
  apply evolve_foldl _ _ _ s (Evolve.refl p s)
  intro t cand hc ht
  simp only [reorderCandidates, List.mem_cons, List.mem_map, List.mem_range] at hc
  apply ht.cons
  · intro _
    rcases hc with rfl | ⟨i, _, rfl⟩
    · exact List.length_insertionSort _ _
    · exact swapAdj_length _ _
  · intro h b hb
    rcases hc with rfl | ⟨i, _, rfl⟩
    · exact h b ((List.perm_insertionSort _ _).mem_iff.mp hb)
    · exact h b (swapAdj_mem hb)

theorem evolve_scSearch {p : Pred} {s : ShrinkState} :
    ∀ fuel t lo hi, hi ≤ s.current.length → Evolve p s t →
      Evolve p s (scSearch p fuel t lo hi).1 := by
  intro fuel
  induction fuel with
  | zero => intro t lo hi _ ht; exact ht
  | succ fuel ih =>
    intro t lo hi hhi ht
    simp only [scSearch]
    by_cases hlh : lo + 1 < hi
    · simp only [if_pos hlh]
      have hmid : (lo + hi) / 2 < hi := by omega
      have hcons : Evolve p s
          (consider p t (List.replicate ((lo + hi) / 2) 0 ++ t.current.drop ((lo + hi) / 2))).1 := by
        apply ht.cons
        · intro _
          have hlen := ht.lenE
          simp only [List.length_append, List.length_replicate, List.length_drop]
          omega
        · intro h b hb
          rcases List.mem_append.mp hb with hb | hb
          · have := List.eq_of_mem_replicate hb
            omega
          · exact ht.bytesE h b (List.drop_subset _ _ hb)
      by_cases hr : (consider p t
          (List.replicate ((lo + hi) / 2) 0 ++ t.current.drop ((lo + hi) / 2))).2 = true
      · simp only [hr, reduceIte]
        exact ih _ _ _ hhi hcons
      · have hr' : (consider p t
            (List.replicate ((lo + hi) / 2) 0 ++ t.current.drop ((lo + hi) / 2))).2 = false := by
          simpa using hr
        simp only [hr', Bool.false_eq_true, reduceIte]
        exact ih _ _ _ (by omega) hcons
    · simp only [if_neg hlh]
      exact ht

theorem evolve_minShape {p : Pred} {s : ShrinkState} (c : Nat) (hc : c < 256) :
    ∀ t, Evolve p s t →
      Evolve p s (consider p t (List.replicate (s.current.length - 1) 0 ++ [c])).1 := by
  intro t ht
  apply ht.cons
  · intro hpos
    simp only [List.length_append, List.length_replicate, List.length_cons, List.length_nil]
    omega
  · intro _ b hb
    rcases List.mem_append.mp hb with hb | hb
    · have := List.eq_of_mem_replicate hb
      omega
    · rcases List.mem_singleton.mp hb with rfl
      exact hc

theorem evolve_short (p : Pred) (s : ShrinkState) : Evolve p s (short_circuit p s).1 := by
  unfold short_circuit
  have h0 := evolve_minShape 0 (by norm_num) s (Evolve.refl p s)
  by_cases hr1 : (consider p s (List.replicate (s.current.length - 1) 0 ++ [0])).2 = true
  · simp only [hr1, reduceIte]
    exact h0
  have hr1' : (consider p s (List.replicate (s.current.length - 1) 0 ++ [0])).2 = false := by
    simpa using hr1
  simp only [hr1', Bool.false_eq_true, reduceIte]
  have h1 := evolve_minShape 1 (by norm_num) _ h0
  by_cases hr2 : (consider p (consider p s (List.replicate (s.current.length - 1) 0 ++ [0])).1
      (List.replicate (s.current.length - 1) 0 ++ [1])).2 = true
  · simp only [hr2, reduceIte]
    exact h1
  have hr2' : (consider p (consider p s (List.replicate (s.current.length - 1) 0 ++ [0])).1
      (List.replicate (s.current.length - 1) 0 ++ [1])).2 = false := by simpa using hr2
  simp only [hr2', Bool.false_eq_true, reduceIte]
  have hs := evolve_scSearch s.current.length _ 0 (s.current.length - 1) (by omega) h1
  generalize hgen : scSearch p s.current.length
    (consider p (consider p s (List.replicate (s.current.length - 1) 0 ++ [0])).1
      (List.replicate (s.current.length - 1) 0 ++ [1])).1 0 (s.current.length - 1) = rr
  rw [hgen] at hs
  by_cases hall : (rr.1.current.take (rr.1.current.length - 1)).all (· == 0) = true
  · simp only [hall, reduceIte]
    exact evolve_minimize rr.1.full rr.1 hs
  · have hall' : (rr.1.current.take (rr.1.current.length - 1)).all (· == 0) = false := by
      simpa using hall
    simp only [hall', Bool.false_eq_true, reduceIte]
    exact hs

theorem evolve_applyOp (op : Op) (p : Pred) (s : ShrinkState) :
    Evolve p s (applyOp op p s) := by
  cases op with
  | sortO => exact evolve_sortB p s
  | floatO cod => exact evolve_float cod p s
  | shiftO => exact evolve_shift p s
  | indicesO => exact evolve_shrink_indices p s
  | rotateO => exact evolve_rotate p s
  | minIntO full => exact evolve_minimize full s (Evolve.refl p s)
  | reorderO => exact evolve_psort p s
  | shortO => exact evolve_short p s

theorem evolve_applyOps (p : Pred) (l : List Op) : ∀ s, Evolve p s (applyOps p l s) := by
  induction l with
  | nil => intro s; exact Evolve.refl p s
  | cons op l ih =>
    intro s
    simp only [applyOps, List.foldl_cons]
    exact (evolve_applyOp op p s).trans (ih (applyOp op p s))

theorem shiftLoop_fuel {p : Pred} :
    ∀ fuel s, (∀ b ∈ s.current, b < 256) → valBE s.current < fuel →
      ∀ k, shiftLoop p (fuel + k) s = shiftLoop p fuel s := by
  intro fuel
  induction fuel with
  | zero => intro s _ h; omega
  | succ fuel ih =>
    intro s hb h k
    have he : fuel + 1 + k = (fuel + k) + 1 := by omega
    rw [he]
    simp only [shiftLoop]
    by_cases hch : (shiftPass p s).changes = s.changes
    · simp only [if_pos hch]
    · simp only [if_neg hch]
      have hev : Evolve p s (shiftPass p s) := evolve_shiftPass s (Evolve.refl p s)
      have hlt : valBE (shiftPass p s).current < valBE s.current := by
        rcases hev.currE with ⟨_, e2⟩ | ⟨e1, _, _⟩
        · exact absurd e2 hch
        · exact valBE_lt_of_lexLt hev.lenE (hev.bytesE hb) e1
      exact ih _ (hev.bytesE hb) (by omega) k

/-! ## The claims -/

/-- C1: for every predicate and every sequence of heuristic operations on
a ShrinkState whose current buffer satisfies the predicate, `current`
satisfies the predicate at every observation point, and between any two
observation points it is either untouched or replaced by a strictly
lexicographically smaller buffer — never by an equal or larger one — so
the sequence of `current` values over time is strictly lexicographically
decreasing. -/
theorem current_satisfies_and_strictly_decreases (p : Pred) (s : ShrinkState)
    (l1 l2 : List Op) (hp : p s.current = true) :
    p (applyOps p l1 s).current = true ∧
    p (applyOps p l2 (applyOps p l1 s)).current = true ∧
    ((applyOps p l2 (applyOps p l1 s)).current = (applyOps p l1 s).current ∨
      lexLt (applyOps p l2 (applyOps p l1 s)).current (applyOps p l1 s).current = true) := by
  have h1 := evolve_applyOps p l1 s
  have h2 := evolve_applyOps p l2 (applyOps p l1 s)
  refine ⟨h1.sat hp, h2.sat (h1.sat hp), ?_⟩
  rcases h2.currE with ⟨e, _⟩ | ⟨e, _, _⟩
  · exact Or.inl e
  · exact Or.inr e

def pC1 : Pred := fun b => b.any (· != 0)

def sC1 : ShrinkState := ⟨[5, 9, 255], 0, [], [], [], false⟩

theorem current_satisfies_and_strictly_decreases_witness :
    pC1 (applyOps pC1 [Op.sortO] sC1).current = true ∧
    pC1 (applyOps pC1 [Op.shortO] (applyOps pC1 [Op.sortO] sC1)).current = true ∧
    ((applyOps pC1 [Op.shortO] (applyOps pC1 [Op.sortO] sC1)).current =
        (applyOps pC1 [Op.sortO] sC1).current ∨
      lexLt (applyOps pC1 [Op.shortO] (applyOps pC1 [Op.sortO] sC1)).current
        (applyOps pC1 [Op.sortO] sC1).current = true) :=
  current_satisfies_and_strictly_decreases pC1 sC1 [Op.sortO] [Op.shortO] (by decide)

/-- C2 counterexample: on the empty initial buffer, `short_circuit`
submits the candidate `[0]` (Python `[0] * (size - 1) + [0]` with
`size = 0`) to the probe protocol; it has length 1 while `current` has
length 0, so the length assertion checked on submitted candidates fails
instead of holding. -/
theorem length_assertion_fails_on_empty :
    [0] ∈ ((short_circuit (fun _ => true) ⟨[], 0, [], [], [], false⟩).1).tried ∧
    ((short_circuit (fun _ => true) ⟨[], 0, [], [], [], false⟩).1).current.length = 0 ∧
    ([0] : Buffer).length ≠ 0 := by decide

/-- C2 (amended): for all predicates and initial buffers, the length of
`current` is preserved by any number of heuristic operations; and for all
nonempty initial buffers, every candidate submitted to the probe
protocol (where the source's length assertion runs) has length exactly
equal to `current`'s length, so the assertion holds.  (On the empty
buffer `short_circuit` submits candidates of length 1 and the assertion
fails.) -/
theorem length_preservation_amended (p : Pred) (s : ShrinkState) (l : List Op) :
    (applyOps p l s).current.length = s.current.length ∧
    (0 < s.current.length →
      ∀ c ∈ (applyOps p l s).tried, c ∈ s.tried ∨ c.length = s.current.length) := by
  have h := evolve_applyOps p l s
  refine ⟨h.lenE, fun hpos c hc => ?_⟩
  rcases h.triedE c hc with hm | hl
  · exact Or.inl hm
  · exact Or.inr (hl hpos)

def pC2 : Pred := fun b => b.any (· != 0)

def sC2 : ShrinkState := ⟨[3, 9], 0, [], [], [], false⟩

theorem length_preservation_amended_witness :
    (applyOps pC2 [Op.shortO, Op.shiftO] sC2).current.length = sC2.current.length ∧
    (∀ c ∈ (applyOps pC2 [Op.shortO, Op.shiftO] sC2).tried,
      c ∈ sC2.tried ∨ c.length = sC2.current.length) :=
  ⟨(length_preservation_amended pC2 sC2 [Op.shortO, Op.shiftO]).1,
   (length_preservation_amended pC2 sC2 [Op.shortO, Op.shiftO]).2 (by decide)⟩

/-- C9: over any sequence of heuristic operations, a buffer cached as
failing is never submitted to the predicate again (its count in the
predicate-call log never grows); and `try` returns false without a
predicate call — only the ghost submission log grows — when the candidate
is cached as failing, equals `current`, or is not strictly
lexicographically smaller than `current`. -/
theorem cache_no_resubmission (p : Pred) (s : ShrinkState) (l : List Op) (c : Buffer)
    (hc : cacheLookup s.cache c = some false) :
    (applyOps p l s).calls.count c = s.calls.count c ∧
    incorporate p s c = ({ s with tried := c :: s.tried }, false) ∧
    (∀ d, d = s.current ∨ lexLt d s.current = false →
      incorporate p s d = ({ s with tried := d :: s.tried }, false)) := by
  refine ⟨(evolve_applyOps p l s).noResub c hc,
    incorporate_of_blocked (Or.inr (Or.inr hc)), ?_⟩
  intro d hd
  rcases hd with hd | hd
  · exact incorporate_of_blocked (Or.inl hd)
  · exact incorporate_of_blocked (Or.inr (Or.inl hd))

def pC9 : Pred := fun _ => false

def sC9 : ShrinkState := ⟨[2], 0, [([1], false)], [], [], false⟩

theorem cache_no_resubmission_witness :
    (applyOps pC9 [Op.minIntO false] sC9).calls.count [1] = sC9.calls.count [1] ∧
    incorporate pC9 sC9 [1] = ({ sC9 with tried := [1] :: sC9.tried }, false) ∧
    (∀ d, d = sC9.current ∨ lexLt d sC9.current = false →
      incorporate pC9 sC9 d = ({ sC9 with tried := d :: sC9.tried }, false)) :=
  cache_no_resubmission pC9 sC9 [Op.minIntO false] [1] (by decide)

/-- C10: the `shift` heuristic terminates for every predicate and byte
buffer: any fuel beyond `valBE current + 1` full passes changes nothing
(the outer loop has already exited at a pass that accepted no probe), and
each full pass either accepts no probe — whereupon the loop exits — or
strictly decreases the buffer in the well-founded big-endian value order,
so only finitely many passes can occur. -/
theorem shift_terminates (p : Pred) (s : ShrinkState) (hb : ∀ b ∈ s.current, b < 256) :
    (∀ k, shiftLoop p (valBE s.current + 1 + k) s = shift p s) ∧
    ((shiftPass p s).changes = s.changes ∨
      valBE (shiftPass p s).current < valBE s.current) := by
  constructor
  · intro k
    unfold shift
    exact shiftLoop_fuel (valBE s.current + 1) s hb (by omega) k
  · have hev : Evolve p s (shiftPass p s) := evolve_shiftPass s (Evolve.refl p s)
    rcases hev.currE with ⟨_, e2⟩ | ⟨e1, _, _⟩
    · exact Or.inl e2
    · exact Or.inr (valBE_lt_of_lexLt hev.lenE (hev.bytesE hb) e1)

def pC10 : Pred := fun b => b.any (· != 0)

def sC10 : ShrinkState := ⟨[5, 3], 0, [], [], [], false⟩

theorem shift_terminates_witness :
    (∀ k, shiftLoop pC10 (valBE sC10.current + 1 + k) sC10 = shift pC10 sC10) ∧
    ((shiftPass pC10 sC10).changes = sC10.changes ∨
      valBE (shiftPass pC10 sC10).current < valBE sC10.current) :=
  shift_terminates pC10 sC10 (by decide)

def pC4 : Pred := fun _ => true

def sC4 : ShrinkState := ⟨[1, 2], 0, [], [], [], false⟩

/-- C4 counterexample: with `current = [1, 2]` already sorted, `sort`'s
acceptance call on the (lexicographically equal) sorted candidate reports
true, whereas `try` (strict-improvement acceptance) on that candidate
reports false — so `sort` does not issue its probe via `try`, and the
acceptance actually used reports true, not false, on an equal
candidate. -/
theorem sort_accepts_equal_candidate :
    (sortB pC4 sC4).2 = true ∧
    (incorporate pC4 sC4 (List.insertionSort (· ≤ ·) sC4.current)).2 = false ∧
    (consider pC4 sC4 sC4.current).2 = true := by decide

/-- C4 (amended): `sort` issues its single submission — the bytes of
`current` sorted ascending — via `consider` (equal-or-better acceptance),
and `partial_sort` passes `consider` to the reorder shrinker as its
acceptance function; when the candidate is lexicographically equal to
`current`, that acceptance call reports true with no state change and no
predicate invocation. -/
theorem sort_uses_consider (p : Pred) (s : ShrinkState) :
    sortB p s = consider p s (List.insertionSort (· ≤ ·) s.current) ∧
    psort p s = Ordering.shrink s.current (consider p) s ∧
    consider p s s.current = (s, true) := by
  refine ⟨rfl, rfl, ?_⟩
  unfold consider
  rw [if_pos rfl]

/-- C5 counterexample: on the all-zero buffer `[0, 0, 0]`,
`rotate_suffixes` does not return normally even for a predicate accepting
everything: the scan leaves `significant` at the last index and the
assertion `assert self.current[significant]` fails (modelled as `none`). -/
theorem rotate_all_zero_raises :
    rotate_suffixes (fun _ => true) ⟨[0, 0, 0], 0, [], [], [], false⟩ = none := by decide

/-- C5 (amended): when `current` is an all-zero buffer, `rotate_suffixes`
issues no probes, but it does not return normally: it fails its internal
assertion that the byte at the computed index is nonzero (AssertionError;
NameError on the empty buffer), modelled as the `none` outcome. -/
theorem rotate_all_zero_asserts (p : Pred) (s : ShrinkState)
    (h : ∀ b ∈ s.current, b = 0) : rotate_suffixes p s = none := by
  unfold rotate_suffixes
  rw [(firstNonzero_none s.current).mpr h]

def pC5 : Pred := fun _ => true

theorem rotate_all_zero_asserts_witness :
    rotate_suffixes pC5 ⟨[0, 0], 7, [], [], [], false⟩ = none :=
  rotate_all_zero_asserts pC5 ⟨[0, 0], 7, [], [], [], false⟩ (by decide)

def qC6 : Pred := fun b => (b.take 3).all (· == 0) || b == [9, 9, 9, 9, 9]

def sC6 : ShrinkState := ⟨[9, 9, 9, 9, 9], 0, [], [], [], false⟩

/-- C6 counterexample: in Scenario E (length 5, a predicate for which
"first 3 bytes zero" suffices, initial `[9,9,9,9,9]`), `short_circuit`'s
binary search never runs, so it does not converge to `lo == 3`: the ghost
final-`lo` component is `none` because the very first minimal-shape probe
`[0,0,0,0,0]` already satisfies the predicate and `short_circuit` returns
immediately after that single predicate call. -/
theorem scenarioE_search_never_runs :
    (short_circuit qC6 sC6).2.2 = none ∧
    (short_circuit qC6 sC6).1.calls = [[0, 0, 0, 0, 0]] := by decide

/-- C6 (amended): for every predicate satisfied by the all-zero length-5
buffer — in particular any predicate for which "the first 3 bytes are
zero" suffices — `short_circuit` from `[9,9,9,9,9]` accepts the all-zero
buffer at its very first probe and returns true immediately: the binary
search over the prefix boundary is skipped (its ghost final-`lo` is
`none`, so it never converges to `lo = 3`), and the final result
`[0,0,0,0,0]` has its first three bytes zero. -/
theorem scenarioE_amended (q : Pred) (h : q [0, 0, 0, 0, 0] = true) :
    short_circuit q sC6 =
      (⟨[0, 0, 0, 0, 0], 1, [([0, 0, 0, 0, 0], true)], [[0, 0, 0, 0, 0]],
        [[0, 0, 0, 0, 0]], false⟩, true, none) ∧
    (short_circuit q sC6).1.current.take 3 = [0, 0, 0] := by
  have hc0 : consider q sC6 [0, 0, 0, 0, 0] =
      (⟨[0, 0, 0, 0, 0], 1, [([0, 0, 0, 0, 0], true)], [[0, 0, 0, 0, 0]],
        [[0, 0, 0, 0, 0]], false⟩, true) := by
    unfold consider
    rw [if_neg (by decide : ¬([0, 0, 0, 0, 0] : Buffer) = sC6.current)]
    rw [incorporate_probe_true (by decide) (by decide) (by decide) h]
    rfl
  have key : short_circuit q sC6 =
      (⟨[0, 0, 0, 0, 0], 1, [([0, 0, 0, 0, 0], true)], [[0, 0, 0, 0, 0]],
        [[0, 0, 0, 0, 0]], false⟩, true, none) := by
    show (let n := sC6.current.length
      let r1 := consider q sC6 (List.replicate (n - 1) 0 ++ [0])
      if r1.2 then (r1.1, true, none)
      else
        let r2 := consider q r1.1 (List.replicate (n - 1) 0 ++ [1])
        if r2.2 then (r2.1, true, none)
        else
          let r := scSearch q n r2.1 0 (n - 1)
          if (r.1.current.take (r.1.current.length - 1)).all (· == 0) then
            (minimize_as_integer q r.1.full r.1, true, some r.2.1)
          else (r.1, false, some r.2.1)) = _
    have hcand : List.replicate (sC6.current.length - 1) 0 ++ [0] = ([0, 0, 0, 0, 0] : Buffer) := by
      decide
    simp only [hcand, hc0, reduceIte]
  exact ⟨key, by rw [key]; rfl⟩

theorem scenarioE_amended_witness :
    short_circuit qC6 sC6 =
      (⟨[0, 0, 0, 0, 0], 1, [([0, 0, 0, 0, 0], true)], [[0, 0, 0, 0, 0]],
        [[0, 0, 0, 0, 0]], false⟩, true, none) ∧
    (short_circuit qC6 sC6).1.current.take 3 = [0, 0, 0] :=
  scenarioE_amended qC6 (by decide)

/-- C8: whenever `current` has its first nonzero byte at index `sig`,
`rotate_suffixes` returns normally, and every predicate call it makes is
on a candidate of the form zero-prefix ++ right ++ left for some split
point `i` in `1 .. length - sig - 1`, built from the buffer that was
current at probe time (the entry buffer, or a strictly smaller one
satisfying the predicate), and only when that rotation is already
lexicographically smaller than the then-current buffer — a rotated
candidate greater than or equal to the current buffer is never probed. -/
theorem rotate_probe_discipline (p : Pred) (s : ShrinkState) (sig : Nat)
    (hsig : firstNonzero s.current = some sig) :
    ∃ s', rotate_suffixes p s = some s' ∧
      ∀ c ∈ s'.calls, c ∈ s.calls ∨
        ∃ i cur, i ∈ List.range' 1 (s.current.length - sig - 1) ∧
          cur.length = s.current.length ∧ (cur = s.current ∨ p cur = true) ∧
          c = rotatedAt sig cur i ∧ lexLt c cur = true := by
  have hsl := firstNonzero_lt _ _ hsig
  have main : ∀ (l : List Nat),
      (∀ i ∈ l, i ∈ List.range' 1 (s.current.length - sig - 1)) →
      ∀ t, Evolve p s t →
      (∀ c ∈ t.calls, c ∈ s.calls ∨
        ∃ i cur, i ∈ List.range' 1 (s.current.length - sig - 1) ∧
          cur.length = s.current.length ∧ (cur = s.current ∨ p cur = true) ∧
          c = rotatedAt sig cur i ∧ lexLt c cur = true) →
      Evolve p s (l.foldl (rotateStep p sig) t) ∧
      (∀ c ∈ (l.foldl (rotateStep p sig) t).calls, c ∈ s.calls ∨
        ∃ i cur, i ∈ List.range' 1 (s.current.length - sig - 1) ∧
          cur.length = s.current.length ∧ (cur = s.current ∨ p cur = true) ∧
          c = rotatedAt sig cur i ∧ lexLt c cur = true) := by
    intro l
    induction l with
    | nil => intro _ t ht hcalls; exact ⟨ht, hcalls⟩
    | cons i l ih =>
      intro hmem t ht hcalls
      simp only [List.foldl_cons]
      have hi := hmem i (List.mem_cons_self _ _)
      rcases List.mem_range'_1.mp hi with ⟨hi1, hi2⟩
      have hev : Evolve p s (rotateStep p sig t i) :=
        evolve_rotateStep sig i hsl hi1 (by omega) t ht
      have hcalls' : ∀ c ∈ (rotateStep p sig t i).calls, c ∈ s.calls ∨
          ∃ i' cur, i' ∈ List.range' 1 (s.current.length - sig - 1) ∧
            cur.length = s.current.length ∧ (cur = s.current ∨ p cur = true) ∧
            c = rotatedAt sig cur i' ∧ lexLt c cur = true := by
        intro c hc
        unfold rotateStep at hc
        by_cases hlt : lexLt (rotatedAt sig t.current i) t.current = true
        · rw [if_pos hlt] at hc
          rcases incorporate_calls_shape p t (rotatedAt sig t.current i) with hsh | hsh
          · rw [hsh] at hc
            exact hcalls c hc
          · rw [hsh] at hc
            rcases List.mem_cons.mp hc with rfl | hc
            · refine Or.inr ⟨i, t.current, hi, ht.lenE, ?_, rfl, hlt⟩
              rcases ht.currE with ⟨e, _⟩ | ⟨_, e, _⟩
              · exact Or.inl e
              · exact Or.inr e
            · exact hcalls c hc
        · rw [if_neg hlt] at hc
          exact hcalls c hc
      exact ih (fun j hj => hmem j (List.mem_cons_of_mem _ hj)) _ hev hcalls'
  have h := main (List.range' 1 (s.current.length - sig - 1)) (fun _ hi => hi) s
    (Evolve.refl p s) (fun c hc => Or.inl hc)
  refine ⟨_, ?_, h.2⟩
  unfold rotate_suffixes
  rw [hsig]

def pC8 : Pred := fun _ => false

def sC8 : ShrinkState := ⟨[0, 2, 1], 0, [], [], [], false⟩

theorem rotate_probe_discipline_witness :
    ∃ s', rotate_suffixes pC8 sC8 = some s' ∧
      ∀ c ∈ s'.calls, c ∈ sC8.calls ∨
        ∃ i cur, i ∈ List.range' 1 (sC8.current.length - 1 - 1) ∧
          cur.length = sC8.current.length ∧ (cur = sC8.current ∨ pC8 cur = true) ∧
          c = rotatedAt 1 cur i ∧ lexLt c cur = true :=
  rotate_probe_discipline pC8 sC8 1 (by decide)

/-- C7: `float_hack`'s probe discipline, for every float codec: it issues
no probes at all when the buffer length is not 8 or the top bit of the
first byte is clear (the state is returned untouched); the standard large
floats are walked in the order NaN, +Infinity, maximum finite double; each
walk step leaves the state untouched unless the value's lexical code `j`
is strictly below the tracked code `i`, in which case the only buffer it
can submit to the predicate is the encoding of `j`; and when the tracked
float after that phase is NaN or infinite, `float_hack` returns the
phase's state with no further probes. -/
theorem float_hack_probe_discipline :
    (∀ (cod : FloatCodec) (p : Pred) (s : ShrinkState), s.current.length ≠ 8 →
      float_hack cod p s = s) ∧
    (∀ (cod : FloatCodec) (p : Pred) (s : ShrinkState), s.current.headD 0 >>> 7 = 0 →
      float_hack cod p s = s) ∧
    floatSpecials = [FP.nan, FP.inf, maxDouble] ∧
    (∀ (cod : FloatCodec) (p : Pred) (t : ShrinkState) (i : Nat) (f g : FP),
      ¬ cod.float_to_lex g < i → floatStep cod p (t, i, f) g = (t, i, f)) ∧
    (∀ (cod : FloatCodec) (p : Pred) (t : ShrinkState) (i : Nat) (f g : FP),
      cod.float_to_lex g < i →
        ((floatStep cod p (t, i, f) g).1.calls = t.calls ∨
          (floatStep cod p (t, i, f) g).1.calls =
            int_to_bytes (cod.float_to_lex g) t.current.length :: t.calls)) ∧
    (∀ (cod : FloatCodec) (p : Pred) (s : ShrinkState),
      s.current.length = 8 → ¬ s.current.headD 0 >>> 7 = 0 →
      cod.is_simple (cod.lex_to_float (valBE s.current)) = false →
      ((floatSpecials.foldl (floatStep cod p)
          (s, valBE s.current, cod.lex_to_float (valBE s.current))).2.2.isinf ||
        (floatSpecials.foldl (floatStep cod p)
          (s, valBE s.current, cod.lex_to_float (valBE s.current))).2.2.isnan) = true →
      float_hack cod p s =
        (floatSpecials.foldl (floatStep cod p)
          (s, valBE s.current, cod.lex_to_float (valBE s.current))).1) := by
  refine ⟨?_, ?_, rfl, ?_, ?_, ?_⟩
  · intro cod p s h
    unfold float_hack
    rw [if_pos h]
  · intro cod p s h
    unfold float_hack
    by_cases h8 : s.current.length ≠ 8
    · rw [if_pos h8]
    · rw [if_neg h8, if_pos h]
  · intro cod p t i f g h
    unfold floatStep
    rw [if_neg h]
  · intro cod p t i f g h
    unfold floatStep
    simp only [if_pos h]
    by_cases hr : (incorporate_int p t (cod.float_to_lex g)).2 = true
    · simp only [hr, reduceIte]
      exact incorporate_calls_shape p t _
    · have hr' : (incorporate_int p t (cod.float_to_lex g)).2 = false := by simpa using hr
      simp only [hr', Bool.false_eq_true, reduceIte]
      exact incorporate_calls_shape p t _
  · intro cod p s h8 htop hsimp hnan
    unfold float_hack
    rw [if_neg (by omega : ¬s.current.length ≠ 8), if_neg htop]
    simp only [hsimp, Bool.false_eq_true, reduceIte, hnan]

def codW : FloatCodec := ⟨fun _ => 0, fun _ => FP.nan, fun _ => false⟩

def pC7 : Pred := fun _ => false

def sC7 : ShrinkState := ⟨[255, 0, 0, 0, 0, 0, 0, 1], 0, [], [], [], false⟩

theorem float_hack_probe_discipline_witness :
    float_hack codW pC7 sC7 =
      (floatSpecials.foldl (floatStep codW pC7)
        (sC7, valBE sC7.current, codW.lex_to_float (valBE sC7.current))).1 :=
  float_hack_probe_discipline.2.2.2.2.2 codW pC7 sC7 (by decide) (by decide) rfl (by decide)

/-! ## C3: the fixpoint guarantee -/

theorem cacheLookup_mem : ∀ (L : List (Buffer × Bool)) (c : Buffer) (b : Bool),
    cacheLookup L c = some b → (c, b) ∈ L := by
  intro L
  induction L with
  | nil => intro c b h; simp [cacheLookup] at h
  | cons e rest ih =>
    intro c b h
    unfold cacheLookup at h
    by_cases he : e.1 = c
    · rw [if_pos he] at h
      simp only [Option.some_inj] at h
      obtain ⟨k, v⟩ := e
      simp only at he h
      rw [he, h]
      exact List.mem_cons_self _ _
    · rw [if_neg he] at h
      exact List.mem_cons_of_mem _ (ih c b h)

theorem intAccept_changes_le (p : Pred) (t : ShrinkState) (c : Nat) :
    t.changes ≤ (intAccept p t c).1.changes := by
  unfold intAccept
  by_cases h : c = valBE t.current
  · rw [if_pos h]
  · rw [if_neg h]
    exact incorporate_changes_le p t _

theorem descend_changes_le (accept : ShrinkState → Nat → ShrinkState × Bool)
    (hacc : ∀ t c, t.changes ≤ (accept t c).1.changes) :
    ∀ fuel v t, t.changes ≤ (Integer.descend accept fuel v t).changes := by
  intro fuel
  induction fuel with
  | zero => intro v t; exact le_refl _
  | succ fuel ih =>
    intro v t
    simp only [Integer.descend]
    by_cases hv : v = 0
    · simp only [if_pos hv]
      exact le_refl _
    simp only [if_neg hv]
    by_cases hr : (accept t (v - 1)).2 = true
    · simp only [hr, reduceIte]
      exact le_trans (hacc t (v - 1)) (ih (v - 1) _)
    · have hr' : (accept t (v - 1)).2 = false := by simpa using hr
      simp only [hr', Bool.false_eq_true, reduceIte]
      exact hacc t (v - 1)

/-- C3: if `minimize_as_integer` (built on the Integer Shrinker
collaborator, modelled from its spec contract of searching to a local
fixpoint) can no longer improve `current` — as at any true fixpoint of the
shrinker — then the lexicographic predecessor of `current`, the buffer
encoding its big-endian value minus one (nonexistent when the buffer is
all zero), does not satisfy the predicate. -/
theorem fixpoint_predecessor_fails (p : Pred) (s : ShrinkState)
    (hb : ∀ b ∈ s.current, b < 256)
    (hcoh : ∀ e ∈ s.cache, p e.1 = e.2)
    (hfix : (minimize_as_integer p false s).changes = s.changes) :
    valBE s.current = 0 ∨
    p (int_to_bytes (valBE s.current - 1) s.current.length) = false := by
  by_cases hv : valBE s.current = 0
  · exact Or.inl hv
  right
  have hvlt : valBE s.current < 256 ^ s.current.length := valBE_lt s.current hb
  have ha0 : intAccept p s 0 = incorporate p s (int_to_bytes 0 s.current.length) := by
    unfold intAccept
    rw [if_neg (by omega : ¬(0 = valBE s.current))]
    rfl
  by_cases hb0 : (intAccept p s 0).2 = true
  · exfalso
    have hmin : minimize_as_integer p false s = (intAccept p s 0).1 := by
      unfold minimize_as_integer Integer.shrink
      simp only [hb0, reduceIte]
    rw [ha0] at hb0
    have := incorporate_true_changes hb0
    rw [hmin, ha0, this] at hfix
    omega
  have hb0' : (intAccept p s 0).2 = false := by simpa using hb0
  have hmin : minimize_as_integer p false s =
      Integer.descend (intAccept p) (valBE s.current) (valBE s.current) (intAccept p s 0).1 := by
    unfold minimize_as_integer Integer.shrink
    simp only [hb0', Bool.false_eq_true, reduceIte]
  rw [ha0] at hb0'
  obtain ⟨hcur0, hchg0, hcache0⟩ := incorporate_false_state hb0'
  rw [← ha0] at hcur0 hchg0 hcache0
  have hcoh0 : ∀ e ∈ (intAccept p s 0).1.cache, p e.1 = e.2 := by
    rcases hcache0 with hcc | ⟨hcc, hpz⟩
    · rw [hcc]; exact hcoh
    · rw [hcc]
      intro e he
      rcases List.mem_cons.mp he with rfl | he
      · exact hpz
      · exact hcoh e he
  -- one step of the descend from v
  obtain ⟨m, hm⟩ : ∃ m, valBE s.current = m + 1 := ⟨valBE s.current - 1, by omega⟩
  set s0 := (intAccept p s 0).1 with hs0def
  set pd := int_to_bytes (valBE s.current - 1) s.current.length with hpddef
  have hs0len : s0.current.length = s.current.length := by rw [hcur0]
  have hpdval : valBE pd = valBE s.current - 1 := by
    rw [hpddef]
    exact valBE_int_to_bytes _ _ (by omega)
  have hane : valBE s.current - 1 ≠ valBE s0.current := by
    rw [hcur0]
    omega
  have haccd : intAccept p s0 (valBE s.current - 1) = incorporate p s0 pd := by
    unfold intAccept
    rw [if_neg hane, hpddef]
    unfold incorporate_int
    rw [hs0len]
  have hpdne : pd ≠ s0.current := by
    intro he
    have : valBE pd = valBE s0.current := by rw [he]
    rw [hpdval, hcur0] at this
    omega
  have hpdlt : lexLt pd s0.current = true := by
    rw [hcur0]
    apply lexLt_of_valBE_lt
    · rw [hpddef, int_to_bytes_length]
    · rw [hpddef]; exact int_to_bytes_lt _ _
    · exact hb
    · rw [hpdval]; omega
  by_cases hcl : cacheLookup s0.cache pd = some false
  · -- cached as failing: coherence gives the result
    exact hcoh0 (pd, false) (cacheLookup_mem _ _ _ hcl)
  -- otherwise the predicate is invoked on the predecessor
  have hprobe : (incorporate p s0 pd).2 = p pd := incorporate_probe hpdne hpdlt hcl
  by_cases hpd : p pd = true
  · -- it would be accepted, contradicting the fixpoint
    exfalso
    have hsnd : (intAccept p s0 (valBE s.current - 1)).2 = true := by
      rw [haccd, hprobe]; exact hpd
    have hchg1 : (intAccept p s0 (valBE s.current - 1)).1.changes = s.changes + 1 := by
      rw [haccd]
      rw [haccd] at hsnd
      rw [incorporate_true_changes hsnd, hchg0]
    have hdes : Integer.descend (intAccept p) (valBE s.current) (valBE s.current) s0 =
        Integer.descend (intAccept p) m (valBE s.current - 1)
          (intAccept p s0 (valBE s.current - 1)).1 := by
      conv_lhs => rw [hm]
      simp only [Integer.descend]
      rw [if_neg (by omega : ¬(m + 1 = 0))]
      have hsub : m + 1 - 1 = valBE s.current - 1 := by omega
      simp only [hsub, hsnd, reduceIte]
    have hle := descend_changes_le (intAccept p) (intAccept_changes_le p) m
      (valBE s.current - 1) (intAccept p s0 (valBE s.current - 1)).1
    have hfinal : (Integer.descend (intAccept p) m (valBE s.current - 1)
        (intAccept p s0 (valBE s.current - 1)).1).changes = s.changes := by
      rw [← hdes, ← hmin]
      exact hfix
    omega
  · simpa using hpd

def pC3 : Pred := fun b => b == [1]

def sC3 : ShrinkState := ⟨[1], 0, [], [], [], false⟩

theorem fixpoint_predecessor_fails_witness :
    valBE sC3.current = 0 ∨
    pC3 (int_to_bytes (valBE sC3.current - 1) sC3.current.length) = false :=
  fixpoint_predecessor_fails pC3 sC3 (by decide) (by decide) (by decide)

end LexicalShrink
